import Mathlib

/-!
Verification of the stableset-experiments actor model.

The repository source available is src/src/main.rs, which wires four
modules (fake_crypto, ledger, membership, stable_set) into a stateright
actor model. The module files themselves are not part of the source tree
here; where a definition below embeds one of those modules it is modelled
from the specification and its doc comment says so. Everything embedding
main.rs follows that file directly.

Conventions of the embedding:
- Rust `Id` (stateright actor id, a wrapped usize) is a natural number.
- `BTreeSet<Id>` is a `Finset Nat`; iteration order of a BTreeSet is
  ascending, so broadcasting maps over the sorted element list.
- A handler that can panic is embedded as an `Option`-returning function;
  `none` models a panic.
- `o.broadcast(set, msg)` becomes a list of (target, message) pairs.
-/

namespace StableSetModel

/-- Node identifier: stateright `Id` wraps a usize; modelled as a natural. -/
abbrev Id := Nat

/-- Constant ELDER_COUNT from main.rs line 15. -/
def ELDER_COUNT : Nat := 3

/-- Modelled from the spec (section 4.1, fake_crypto module not under src):
a partial signature produced by `sign(nodeId, payload)`; the fake scheme
records the signer and the payload, enforcing agreement-accounting only. -/
abbrev Sig (α : Type) := Id × α

/-- Modelled from the spec (section 4.1): `sign(nodeId, payload)`. -/
def sign {α : Type} (nodeId : Id) (payload : α) : Sig α := (nodeId, payload)

/-- Modelled from the spec (section 4.1, fake_crypto module not under src):
verification of a set of (signer, partial signature) pairs succeeds iff
every pair is a valid signature over the payload under its own key, every
signer is in the declared authority set, and the set size meets the
threshold. -/
def verify {α : Type} [DecidableEq α] (signatureSet : Finset (Id × Sig α)) (payload : α)
    (authoritySet : Finset Id) (threshold : Nat) : Bool :=
  decide (∀ p ∈ signatureSet, p.2 = sign p.1 payload) &&
  decide (∀ p ∈ signatureSet, p.1 ∈ authoritySet) &&
  decide (threshold ≤ signatureSet.card)

/-- Modelled from the spec (fake_crypto module not under src): an
aggregated section signature, as read back by main.rs via `sig.voters`
and `sig.verify`. -/
structure SectionSig (α : Type) where
  voters : Finset Id
  sigs : Finset (Id × Sig α)
deriving DecidableEq

/-- Empty aggregate, the state of a freshly created pending signature. -/
def SectionSig.empty {α : Type} : SectionSig α := ⟨∅, ∅⟩

/-- Modelled from the spec (glossary "Quorum/threshold", value not fixed by
the spec): majority of the elder set. -/
def quorum (elders : Finset Id) : Nat := elders.card / 2 + 1

/-- Modelled from the spec (section 6 message taxonomy, membership module
not under src): the Membership message family. -/
inductive MembershipMsg where
  | JoinRequest (candidate : Id)
  | AdmitVote (candidate : Id) (vote : Sig Id)
  | AdmitCertificate (candidate : Id) (cert : SectionSig Id)
deriving DecidableEq

/-- Modelled from the spec (section 3, ledger module not under src): a
bearer certificate carrying an identity and an amount. -/
structure Dbc where
  id : Id
  amount : Nat
deriving DecidableEq

/-- Modelled from the spec (section 3): a transaction is an ordered input
DBC list plus an ordered output-amount list. -/
structure Tx where
  inputs : List Dbc
  outputs : List Nat
deriving DecidableEq

/-- Modelled from the spec (section 6 message taxonomy, ledger module not
under src): the Ledger message family. -/
inductive LedgerMsg where
  | ReissueRequest (tx : Tx)
  | ReissueSignatureShare (tx : Tx) (share : Sig Tx)
  | ReissueCertificate (tx : Tx) (sig : SectionSig Tx)
deriving DecidableEq

/-- The top-level message union of main.rs lines 36-40: Membership and
Wallet wrappers plus the scheduling message StartReissue. -/
inductive Msg where
  | Membership (m : MembershipMsg)
  | Wallet (m : LedgerMsg)
  | StartReissue
deriving DecidableEq

/-- Family name of a top-level message constructor, mirroring the variant
names of the Rust enum `Msg` in main.rs lines 36-40. -/
def Msg.family : Msg → String
  | .Membership _ => "Membership"
  | .Wallet _ => "Wallet"
  | .StartReissue => "StartReissue"

/-- The family names of the top-level union as declared in main.rs. -/
def codeMsgFamilies : List String := ["Membership", "Wallet", "StartReissue"]

/-- Modelled from the spec (section 6): the three message families the
specification's taxonomy table declares for the top-level union. -/
def specMsgFamilies : List String := ["Membership", "Handover", "Ledger"]

/-- Broadcast to a BTreeSet of targets: one copy per member, in ascending
order, as stateright's `o.broadcast` iterates the set. -/
def broadcast (targets : Finset Id) (m : Msg) : List (Id × Msg) :=
  (targets.sort (· ≤ ·)).map (fun t => (t, m))

/-- Modelled from the spec (sections 3 and 4.2, membership and stable_set
modules not under src): a node's membership component holds its stable set
of joined identities and the accept votes it has collected, deduplicated
by (candidate, signer). -/
structure Membership where
  stable_set : Finset Id
  votes : Finset (Id × Id)
deriving DecidableEq

/-- Modelled from the spec: a fresh membership starts from the genesis
node set with no votes collected. -/
def Membership.new (genesis_nodes : Finset Id) : Membership :=
  ⟨genesis_nodes, ∅⟩

/-- Modelled from the spec (section 3 "Elders", membership module not
under src): the elder set is the fixed-size authoritative subset of the
stable set, taken as its ELDER_COUNT smallest identities. -/
def Membership.elders (m : Membership) : Finset Id :=
  ((m.stable_set.sort (· ≤ ·)).take ELDER_COUNT).toFinset

/-- Modelled from the spec (section 4.2): `req_join(candidate)` builds the
JoinRequest message broadcast by a node not yet in the stable set. -/
def Membership.req_join (_m : Membership) (candidate : Id) : MembershipMsg :=
  MembershipMsg.JoinRequest candidate

/-- Modelled from the spec (section 4.2, membership module not under src):
the membership handler. An elder receiving a JoinRequest for an unjoined
candidate signs an accept vote and returns it; a node collecting a quorum
of votes forms an AdmitCertificate, applies it and rebroadcasts it; a
valid certificate inserts the candidate, idempotently. -/
def Membership.on_msg (m : Membership) (elders : Finset Id) (id _src : Id)
    (msg : MembershipMsg) : Membership × List (Id × Msg) :=
  match msg with
  | .JoinRequest c =>
      if id ∈ elders ∧ c ∉ m.stable_set then
        (m, [(_src, Msg.Membership (.AdmitVote c (sign id c)))])
      else (m, [])
  | .AdmitVote c vote =>
      if vote = sign vote.1 c ∧ vote.1 ∈ elders then
        let votes := m.votes ∪ {(c, vote.1)}
        let voters := (votes.filter (fun p => p.1 = c)).image Prod.snd
        if quorum elders ≤ voters.card ∧ c ∉ m.stable_set then
          ({ stable_set := m.stable_set ∪ {c}, votes := votes },
           broadcast (m.stable_set ∪ {c})
             (Msg.Membership (.AdmitCertificate c ⟨voters, voters.image (fun v => (v, sign v c))⟩)))
        else ({ m with votes := votes }, [])
      else (m, [])
  | .AdmitCertificate c cert =>
      if verify cert.sigs c elders (quorum elders) = true ∧ c ∉ m.stable_set then
        ({ m with stable_set := m.stable_set ∪ {c} },
         broadcast (m.stable_set ∪ {c}) (Msg.Membership (.AdmitCertificate c cert)))
      else (m, [])

/-- Modelled from the spec (sections 3 and 4.4, ledger module not under
src): a node's ledger holds the shared genesis DBC, every DBC it has seen
minted, and its append-only spent book mapping DBC identity to the
consuming transaction. -/
structure Ledger where
  genesis_dbc : Dbc
  dbcs : List Dbc
  spentbook : List (Id × Tx)
deriving DecidableEq

/-- Amount of the genesis issuance as recorded in this ledger. -/
def Ledger.genesis_amount (l : Ledger) : Nat := l.genesis_dbc.amount

/-- Identities recorded spent in the spent book. -/
def Ledger.spent_ids (l : Ledger) : List Id := l.spentbook.map Prod.fst

/-- Whether a DBC is recorded spent. -/
def Ledger.isSpent (l : Ledger) (d : Dbc) : Bool := decide (d.id ∈ l.spent_ids)

/-- The currently unspent DBCs of this ledger. -/
def Ledger.unspent (l : Ledger) : List Dbc :=
  l.dbcs.filter (fun d => ! l.isSpent d)

/-- Sum of the amounts of the currently unspent DBCs. -/
def Ledger.sum_unspent_outputs (l : Ledger) : Nat :=
  (l.unspent.map Dbc.amount).sum

/-- Largest DBC identity present in the ledger. -/
def Ledger.max_id (l : Ledger) : Nat := (l.dbcs.map Dbc.id).foldr max 0

/-- First identity fresh for this ledger, used when minting outputs. -/
def Ledger.next_id (l : Ledger) : Nat := l.max_id + 1

/-- Modelled from the spec (section 4.4 step 4): mint one fresh DBC per
output amount. -/
def Ledger.mint (l : Ledger) (outputs : List Nat) : List Dbc :=
  ((List.range outputs.length).zip outputs).map (fun p => ⟨l.next_id + p.1, p.2⟩)

/-- Modelled from the spec (section 4.4 step 4): finalizing a certified
transaction marks every input spent, bound to this transaction, and mints
a new DBC per output amount. -/
def Ledger.finalize (l : Ledger) (tx : Tx) : Ledger :=
  { l with
      dbcs := l.dbcs ++ l.mint tx.outputs,
      spentbook := l.spentbook ++ tx.inputs.map (fun d => (d.id, tx)) }

/-- Modelled from the spec (section 4.4 "Genesis"): the initial ledger
holds exactly the genesis DBC of the fixed issuance amount, nothing spent. -/
def Ledger.init (amount : Nat) : Ledger :=
  { genesis_dbc := ⟨0, amount⟩, dbcs := [⟨0, amount⟩], spentbook := [] }

/-- Modelled from the spec (scenario B fixes the genesis issuance at 100;
the constant lives in the ledger module, not under src). -/
def GENESIS_AMOUNT : Nat := 100

/-- The wallet component as read by main.rs: a ledger plus the single
in-flight pending transaction slot holding the transaction and the
signature shares aggregated so far. -/
structure Wallet where
  ledger : Ledger
  pending_tx : Option (Tx × SectionSig Tx)
deriving DecidableEq

/-- Modelled from the spec: a fresh wallet sees the genesis DBC and has an
empty pending slot. -/
def Wallet.new (_genesis_nodes : Finset Id) : Wallet :=
  ⟨Ledger.init GENESIS_AMOUNT, none⟩

/-- Modelled from the spec (section 4.4 steps 1-2, ledger module not under
src): reissue checks the local preconditions — no input already recorded
spent, output total not exceeding input total, pending slot free — and on
success records the pending transaction and broadcasts a ReissueRequest to
the elders; on any failed precondition it is a no-op. -/
def Wallet.reissue (w : Wallet) (elders : Finset Id) (inputs : List Dbc)
    (outputs : List Nat) : Wallet × List (Id × Msg) :=
  if ∃ d ∈ inputs, w.ledger.isSpent d then (w, [])
  else if (inputs.map Dbc.amount).sum < outputs.sum then (w, [])
  else if w.pending_tx.isSome then (w, [])
  else
    ({ w with pending_tx := some (⟨inputs, outputs⟩, SectionSig.empty) },
     broadcast elders (Msg.Wallet (LedgerMsg.ReissueRequest ⟨inputs, outputs⟩)))

/-- Modelled from the spec (section 4.4 steps 3-4, ledger module not under
src): the wallet handler. An elder signs a requested transaction only if
none of its inputs is recorded spent; the requester aggregates shares into
its pending slot and, on reaching a verified quorum, finalizes and
broadcasts the certificate; a node receiving a valid certificate applies
it to its own ledger. -/
def Wallet.on_msg (w : Wallet) (elders : Finset Id) (id src : Id)
    (msg : LedgerMsg) : Wallet × List (Id × Msg) :=
  match msg with
  | .ReissueRequest tx =>
      if id ∈ elders ∧ (∀ d ∈ tx.inputs, w.ledger.isSpent d = false) ∧
          tx.outputs.sum ≤ (tx.inputs.map Dbc.amount).sum then
        (w, [(src, Msg.Wallet (.ReissueSignatureShare tx (sign id tx)))])
      else (w, [])
  | .ReissueSignatureShare tx share =>
      match w.pending_tx with
      | some (ptx, sig) =>
          if ptx = tx ∧ share = sign share.1 tx ∧ share.1 ∈ elders then
            let sig2 : SectionSig Tx := ⟨sig.voters ∪ {share.1}, sig.sigs ∪ {(share.1, share)}⟩
            if verify sig2.sigs tx elders (quorum elders) = true then
              ({ ledger := if ∀ d ∈ tx.inputs, w.ledger.isSpent d = false
                           then w.ledger.finalize tx else w.ledger,
                 pending_tx := none },
               broadcast elders (Msg.Wallet (.ReissueCertificate tx sig2)))
            else ({ w with pending_tx := some (tx, sig2) }, [])
          else (w, [])
      | none => (w, [])
  | .ReissueCertificate tx sig =>
      if verify sig.sigs tx elders (quorum elders) = true ∧
          (∀ d ∈ tx.inputs, w.ledger.isSpent d = false) then
        ({ ledger := w.ledger.finalize tx, pending_tx := w.pending_tx }, [])
      else (w, [])

/-- Per-node protocol state, main.rs lines 17-21. -/
structure State where
  membership : Membership
  wallet : Wallet
deriving DecidableEq

/-- State::elders, main.rs lines 23-27. -/
def State.elders (s : State) : Finset Id := s.membership.elders

/-- Node actor configuration, main.rs lines 29-33. -/
structure Node where
  genesis_nodes : Finset Id
  peers : List Id

/-- Actor::on_start, main.rs lines 69-85: every node builds the same
initial membership and wallet from the genesis node set; a node outside
the genesis set broadcasts a JoinRequest for itself to the genesis nodes. -/
def Node.on_start (n : Node) (id : Id) : State × List (Id × Msg) :=
  let membership := Membership.new n.genesis_nodes
  let wallet := Wallet.new n.genesis_nodes
  let out := if id ∈ n.genesis_nodes then []
             else broadcast n.genesis_nodes (Msg.Membership (membership.req_join id))
  (⟨membership, wallet⟩, out)

/-- Actor::on_msg, main.rs lines 87-121. The Membership and Wallet arms
dispatch to the owning component; the StartReissue arm looks the node's
own id up in `0 .. peers.len() + 1` (`unwrap` panics if absent, modelled
as `none`) and reissues the genesis DBC into the split
[id, amount - id] (u64 subtraction panics on underflow, modelled as
`none`). -/
def Node.on_msg (n : Node) (id : Id) (state : State) (src : Id) (msg : Msg) :
    Option (State × List (Id × Msg)) :=
  match msg with
  | Msg.Membership m =>
      let r := state.membership.on_msg state.elders id src m
      some ({ state with membership := r.1 }, r.2)
  | Msg.Wallet m =>
      let r := state.wallet.on_msg state.elders id src m
      some ({ state with wallet := r.1 }, r.2)
  | Msg.StartReissue =>
      let input := state.wallet.ledger.genesis_dbc
      match (List.range (n.peers.length + 1)).find? (fun x => x == id) with
      | none => none
      | some reissue_amount =>
          if reissue_amount ≤ input.amount then
            let r := state.wallet.reissue state.elders [input]
              [reissue_amount, input.amount - reissue_amount]
            some ({ state with wallet := r.1 }, r.2)
          else none

/-- Modelled from the spec (section 4.4 steps 3-4): the conditions under
which a transaction is finalized by the model. Its inputs are present and
unspent DBCs with pairwise distinct identities, and — as for every
transaction the model ever builds, a StartReissue split
[id, amount - id] — the output total equals the input total. -/
def TxValid (l : Ledger) (tx : Tx) : Prop :=
  (∀ d ∈ tx.inputs, d ∈ l.dbcs ∧ l.isSpent d = false) ∧
  (tx.inputs.map Dbc.id).Nodup ∧
  tx.outputs.sum = (tx.inputs.map Dbc.amount).sum

instance instDecidableTxValid (l : Ledger) (tx : Tx) : Decidable (TxValid l tx) := by
  unfold TxValid
  infer_instance

/-- One step of a node's local ledger: finalizing one certified valid
transaction, as in section 4.4 step 4. -/
inductive LedgerStep : Ledger → Ledger → Prop
  | finalize (l : Ledger) (tx : Tx) (h : TxValid l tx) : LedgerStep l (l.finalize tx)

/-- A ledger state reachable from the genesis ledger of the given amount
by finalizing certified transactions. -/
def LedgerReachable (amount : Nat) (l : Ledger) : Prop :=
  Relation.ReflTransGen LedgerStep (Ledger.init amount) l

/-- Well-formedness maintained by every reachable ledger: DBC identities
are pairwise distinct and the spent book only names existing DBCs. -/
def LedgerWF (l : Ledger) : Prop :=
  (l.dbcs.map Dbc.id).Nodup ∧ ∀ i ∈ l.spent_ids, i ∈ l.dbcs.map Dbc.id

/-- Modelled from the spec (section 4.4 step 5): across a run, a given
elder co-signs at most one transaction per input — it refuses any
transaction whose input it has already signed away. The whole-run signing
discipline of one elder is therefore a function from inputs to the unique
transaction, if any, that elder signed for that input. A transaction is
certified when some signature set over it verifies against the elder set
at the quorum threshold and every signature in it respects that
discipline for every input of the transaction. -/
def CertifiedBy (elders : Finset Id) (threshold : Nat)
    (signed : Id → Dbc → Option Tx) (tx : Tx) : Prop :=
  ∃ sigset : Finset (Id × Sig Tx),
    verify sigset tx elders threshold = true ∧
    ∀ p ∈ sigset, ∀ d ∈ tx.inputs, signed p.1 d = some tx

/-- Concrete DBC used by witnesses: the genesis DBC of amount 100. -/
def dbcEx : Dbc := ⟨0, 100⟩

/-- Concrete transaction used by witnesses: an even split of the genesis. -/
def txEx : Tx := ⟨[dbcEx], [50, 50]⟩

/-- Concrete whole-run elder signing discipline used by witnesses: elder 0
signed txEx for the genesis DBC and nothing else. -/
def signedEx : Id → Dbc → Option Tx :=
  fun e d => if e = 0 ∧ d = dbcEx then some txEx else none

/-! Helper lemmas. -/

lemma elders_new_of_card_le (g : Finset Id) (h : g.card ≤ ELDER_COUNT) :
    (Membership.new g).elders = g := by
  unfold Membership.elders Membership.new
  rw [List.take_of_length_le (by rw [Finset.length_sort]; exact h)]
  exact Finset.sort_toFinset _ _

lemma find_range_self (k n : Nat) (h : k < n) :
    (List.range n).find? (fun x => x == k) = some k := by
  induction n with
  | zero => omega
  | succ m ih =>
      rw [List.range_succ, List.find?_append]
      rcases Nat.lt_or_ge k m with hk | hk
      · rw [ih hk]
        rfl
      · have hk2 : k = m := by omega
        subst hk2
        have hnone : (List.range k).find? (fun x => x == k) = none := by
          rw [List.find?_eq_none]
          intro x hx
          have : x < k := List.mem_range.mp hx
          simp [Nat.ne_of_lt this]
        rw [hnone]
        simp [List.find?]

/-! Claim theorems. -/

/-- C3: quorum-signature verification returns true if and only if every
signer's partial signature is valid over the payload under that signer's
own key, every signer is a member of the declared authority set, and the
number of signatures is at least the threshold. -/
theorem verify_iff {α : Type} [DecidableEq α] (signatureSet : Finset (Id × Sig α))
    (payload : α) (authoritySet : Finset Id) (threshold : Nat) :
    verify signatureSet payload authoritySet threshold = true ↔
      ((∀ p ∈ signatureSet, p.2 = sign p.1 payload) ∧
       (∀ p ∈ signatureSet, p.1 ∈ authoritySet) ∧
       threshold ≤ signatureSet.card) := by
  simp [verify, Bool.and_eq_true, decide_eq_true_iff, and_assoc]

/-- Witness for C3 at a concrete signature set, payload and authority. -/
theorem verify_iff_witness :
    verify {(0, (0, 42))} (42 : Nat) {0} 1 = true ↔
      ((∀ p ∈ ({(0, (0, 42))} : Finset (Id × Sig Nat)), p.2 = sign p.1 42) ∧
       (∀ p ∈ ({(0, (0, 42))} : Finset (Id × Sig Nat)), p.1 ∈ ({0} : Finset Id)) ∧
       1 ≤ ({(0, (0, 42))} : Finset (Id × Sig Nat)).card) :=
  verify_iff {(0, (0, 42))} 42 {0} 1

/-- C4: on startup, a node whose id is not in the genesis node set
broadcasts a JoinRequest for itself to the current elder set, and a node
already in the set broadcasts nothing. Stated for genesis sets of at most
ELDER_COUNT nodes, where the initial elder set is the genesis set itself
(the configurations the model runs use 1 or 2 genesis nodes). -/
theorem on_start_join_request (n : Node) (id : Id)
    (hgen : n.genesis_nodes.card ≤ ELDER_COUNT) :
    (id ∉ n.genesis_nodes →
        (n.on_start id).2 =
          broadcast ((n.on_start id).1.elders)
            (Msg.Membership (MembershipMsg.JoinRequest id))) ∧
    (id ∈ n.genesis_nodes → (n.on_start id).2 = []) := by
  constructor
  · intro h
    simp only [Node.on_start, State.elders, Membership.req_join,
      elders_new_of_card_le _ hgen, if_neg h]
  · intro h
    simp only [Node.on_start, if_pos h]

/-- Witness for C4: with genesis nodes 0 and 1, node 5 broadcasts its
JoinRequest to the elder set, and node 0 broadcasts nothing. -/
theorem on_start_join_request_witness :
    ((Node.mk {0, 1} []).on_start 5).2 =
        broadcast (((Node.mk {0, 1} []).on_start 5).1.elders)
          (Msg.Membership (MembershipMsg.JoinRequest 5)) ∧
    ((Node.mk {0, 1} []).on_start 0).2 = [] :=
  ⟨(on_start_join_request (Node.mk {0, 1} []) 5 (by decide)).1 (by decide),
   (on_start_join_request (Node.mk {0, 1} []) 0 (by decide)).2 (by decide)⟩

/-- C5 counterexample: on_msg is not total on arbitrary receiving ids.
On a node with peers [1, 2, 3, 4] and receiving id 7, the StartReissue
arm looks 7 up in the range 0..5, the lookup fails, and the unwrap on it
panics (likewise the u64 difference amount - id overflows whenever the id
exceeds the genesis amount); the panic is modelled here as `none`. -/
theorem on_msg_start_reissue_panics :
    Node.on_msg ⟨{0}, [1, 2, 3, 4]⟩ 7
      ⟨Membership.new {0}, ⟨Ledger.init 100, none⟩⟩ 0 Msg.StartReissue = none := by
  decide

/-- C5 amended: on_msg is total for all Membership and Wallet family
messages; the StartReissue handler terminates normally provided the
receiving id does not exceed the peer count and its numeric value does
not exceed the genesis amount. -/
theorem on_msg_total_when_in_range (n : Node) (id : Id) (st : State) (src : Id)
    (msg : Msg)
    (h : msg = Msg.StartReissue →
         id ≤ n.peers.length ∧ id ≤ st.wallet.ledger.genesis_dbc.amount) :
    (n.on_msg id st src msg).isSome = true := by
  cases msg with
  | Membership m => rfl
  | Wallet m => rfl
  | StartReissue =>
      obtain ⟨h1, h2⟩ := h rfl
      simp only [Node.on_msg]
      rw [find_range_self id (n.peers.length + 1) (Nat.lt_succ_of_le h1)]
      simp [h2]

/-- Witness for the amended C5 at a concrete node, state and message. -/
theorem on_msg_total_when_in_range_witness :
    (Node.on_msg ⟨{0}, [1, 2, 3, 4]⟩ 3
      ⟨Membership.new {0}, ⟨Ledger.init 100, none⟩⟩ 0 Msg.StartReissue).isSome = true :=
  on_msg_total_when_in_range ⟨{0}, [1, 2, 3, 4]⟩ 3
    ⟨Membership.new {0}, ⟨Ledger.init 100, none⟩⟩ 0 Msg.StartReissue
    (fun _ => by constructor <;> decide)

/-- C6 counterexample: the top-level union is not made of the families
Membership, Handover, Ledger. The message StartReissue belongs to none of
the specification's three families, and the declared family list of the
code differs from the specification's. -/
theorem msg_families_differ_from_spec :
    Msg.family Msg.StartReissue ∉ specMsgFamilies ∧
      codeMsgFamilies ≠ specMsgFamilies := by
  constructor <;> decide

/-- C6 amended: the top-level message type is a single tagged union over
exactly the families Membership, Wallet (the ledger messages) and the
scheduling message StartReissue — there is no Handover family — and every
message falls under one of these three constructors, which the top-level
dispatcher matches exhaustively. -/
theorem msg_union_families (m : Msg) :
    Msg.family m ∈ codeMsgFamilies ∧
      ((∃ x, m = Msg.Membership x) ∨ (∃ x, m = Msg.Wallet x) ∨
        m = Msg.StartReissue) := by
  cases m <;> simp [Msg.family, codeMsgFamilies]

/-- C7: reissue is rejected as a local no-op — no state change and no
outbound ReissueRequest — whenever some input is already recorded spent,
or the output total exceeds the input total, or the single in-flight
pending slot is already occupied. -/
theorem reissue_rejected_noop (w : Wallet) (elders : Finset Id)
    (inputs : List Dbc) (outputs : List Nat)
    (h : (∃ d ∈ inputs, w.ledger.isSpent d) ∨
         (inputs.map Dbc.amount).sum < outputs.sum ∨
         w.pending_tx.isSome) :
    w.reissue elders inputs outputs = (w, []) := by
  unfold Wallet.reissue
  rcases h with h1 | h2 | h3
  · rw [if_pos h1]
  · by_cases hs : ∃ d ∈ inputs, w.ledger.isSpent d
    · rw [if_pos hs]
    · rw [if_neg hs, if_pos h2]
  · by_cases hs : ∃ d ∈ inputs, w.ledger.isSpent d
    · rw [if_pos hs]
    · by_cases hlt : (inputs.map Dbc.amount).sum < outputs.sum
      · rw [if_neg hs, if_pos hlt]
      · rw [if_neg hs, if_neg hlt, if_pos h3]

/-- Witness for C7: a wallet with an occupied pending slot rejects a
fresh reissue of the genesis DBC. -/
theorem reissue_rejected_noop_witness :
    Wallet.reissue ⟨Ledger.init 100, some (txEx, SectionSig.empty)⟩ {0} [dbcEx] [50, 50]
      = (⟨Ledger.init 100, some (txEx, SectionSig.empty)⟩, []) :=
  reissue_rejected_noop ⟨Ledger.init 100, some (txEx, SectionSig.empty)⟩ {0}
    [dbcEx] [50, 50] (Or.inr (Or.inr (by decide)))

/-- C9: handling a Membership-family message leaves the wallet component
(ledger, spent book, pending transaction) unchanged, and handling a
Wallet-family message leaves the membership component (stable set,
elders) unchanged. -/
theorem on_msg_frame (n : Node) (id : Id) (st : State) (src : Id) :
    (∀ m, (n.on_msg id st src (Msg.Membership m)).map (fun p => p.1.wallet)
        = some st.wallet) ∧
    (∀ m, (n.on_msg id st src (Msg.Wallet m)).map (fun p => p.1.membership)
        = some st.membership) :=
  ⟨fun _ => rfl, fun _ => rfl⟩

/-- C10: on_start returns the same initial State for every node id — the
initial membership and wallet depend only on the genesis node set — and a
node in the genesis set emits no startup messages at all. -/
theorem on_start_uniform (n : Node) (a b : Id) :
    (n.on_start a).1 = (n.on_start b).1 ∧
    (a ∈ n.genesis_nodes → (n.on_start a).2 = []) := by
  refine ⟨rfl, fun h => ?_⟩
  simp only [Node.on_start, if_pos h]

/-- Witness for C10: nodes 0 and 5 start in identical states and genesis
node 0 emits nothing. -/
theorem on_start_uniform_witness :
    ((Node.mk {0, 1} []).on_start 0).1 = ((Node.mk {0, 1} []).on_start 5).1 ∧
    ((Node.mk {0, 1} []).on_start 0).2 = [] :=
  ⟨(on_start_uniform (Node.mk {0, 1} []) 0 5).1,
   (on_start_uniform (Node.mk {0, 1} []) 0 5).2 (by decide)⟩

/-! Ledger bookkeeping lemmas for the conservation invariant. -/

lemma le_foldr_max (x : Nat) (xs : List Nat) (h : x ∈ xs) :
    x ≤ xs.foldr max 0 := by
  induction xs with
  | nil => cases h
  | cons a as ih =>
      rcases List.mem_cons.mp h with rfl | h'
      · exact le_max_left _ _
      · exact le_trans (ih h') (le_max_right _ _)

lemma id_le_max_id (l : Ledger) (d : Dbc) (h : d ∈ l.dbcs) :
    d.id ≤ l.max_id :=
  le_foldr_max _ _ (List.mem_map_of_mem Dbc.id h)

lemma mint_map_amount (l : Ledger) (outs : List Nat) :
    (l.mint outs).map Dbc.amount = outs := by
  unfold Ledger.mint
  rw [List.map_map]
  have hc : (Dbc.amount ∘ fun p : Nat × Nat => (⟨l.next_id + p.1, p.2⟩ : Dbc))
      = Prod.snd := rfl
  rw [hc]
  exact List.map_snd_zip _ _ (by simp)

lemma mint_map_id (l : Ledger) (outs : List Nat) :
    (l.mint outs).map Dbc.id
      = (List.range outs.length).map (fun i => l.next_id + i) := by
  unfold Ledger.mint
  rw [List.map_map]
  have hc : (Dbc.id ∘ fun p : Nat × Nat => (⟨l.next_id + p.1, p.2⟩ : Dbc))
      = (fun i => l.next_id + i) ∘ Prod.fst := rfl
  rw [hc, ← List.map_map, List.map_fst_zip _ _ (by simp)]

lemma mint_id_ge (l : Ledger) (outs : List Nat) (i : Id)
    (h : i ∈ (l.mint outs).map Dbc.id) : l.next_id ≤ i := by
  rw [mint_map_id] at h
  obtain ⟨j, _, rfl⟩ := List.mem_map.mp h
  exact Nat.le_add_right _ _

lemma finalize_spent_ids (l : Ledger) (tx : Tx) :
    (l.finalize tx).spent_ids = l.spent_ids ++ tx.inputs.map Dbc.id := by
  unfold Ledger.finalize Ledger.spent_ids
  rw [List.map_append, List.map_map]
  rfl

lemma sum_filter_cons_id (ds : List Dbc) (spent : List Id) (i : Dbc)
    (hnd : (ds.map Dbc.id).Nodup) (hmem : i ∈ ds) (hns : i.id ∉ spent) :
    ((ds.filter (fun d => ! decide (d.id ∈ i.id :: spent))).map Dbc.amount).sum
        + i.amount
      = ((ds.filter (fun d => ! decide (d.id ∈ spent))).map Dbc.amount).sum := by
  induction ds with
  | nil => cases hmem
  | cons a as ih =>
      rw [List.map_cons, List.nodup_cons] at hnd
      obtain ⟨ha, hnd2⟩ := hnd
      rcases List.mem_cons.mp hmem with rfl | hmem2
      · rw [List.filter_cons_of_neg (by simp),
          List.filter_cons_of_pos (by simp [hns])]
        have hfe : as.filter (fun d => ! decide (d.id ∈ i.id :: spent))
            = as.filter (fun d => ! decide (d.id ∈ spent)) := by
          apply List.filter_congr
          intro x hx
          have hxne : x.id ≠ i.id := fun he =>
            ha (he ▸ List.mem_map_of_mem Dbc.id hx)
          simp [List.mem_cons, hxne]
        rw [hfe, List.map_cons, List.sum_cons]
        omega
      · have haid : a.id ≠ i.id := fun he =>
          ha (he ▸ List.mem_map_of_mem Dbc.id hmem2)
        by_cases hsp : a.id ∈ spent
        · rw [List.filter_cons_of_neg (by simp [hsp]),
            List.filter_cons_of_neg (by simp [hsp])]
          exact ih hnd2 hmem2
        · rw [List.filter_cons_of_pos (by simp [List.mem_cons, hsp, haid]),
            List.filter_cons_of_pos (by simp [hsp]),
            List.map_cons, List.sum_cons, List.map_cons, List.sum_cons]
          have := ih hnd2 hmem2
          omega

lemma sum_filter_append_ids (ds : List Dbc) (ins : List Dbc) (spent : List Id)
    (hnd : (ds.map Dbc.id).Nodup)
    (hins : ∀ d ∈ ins, d ∈ ds ∧ d.id ∉ spent)
    (hinsnd : (ins.map Dbc.id).Nodup) :
    ((ds.filter (fun d => ! decide (d.id ∈ spent ++ ins.map Dbc.id))).map Dbc.amount).sum
        + (ins.map Dbc.amount).sum
      = ((ds.filter (fun d => ! decide (d.id ∈ spent))).map Dbc.amount).sum := by
  induction ins generalizing spent with
  | nil => simp
  | cons i is ih =>
      rw [List.map_cons, List.nodup_cons] at hinsnd
      obtain ⟨hi0, hisnd⟩ := hinsnd
      have hfe : ds.filter (fun d => ! decide (d.id ∈ spent ++ (i :: is).map Dbc.id))
          = ds.filter (fun d => ! decide (d.id ∈ (i.id :: spent) ++ is.map Dbc.id)) := by
        apply List.filter_congr
        intro x _
        have hiff : (x.id ∈ spent ++ (i :: is).map Dbc.id)
            ↔ (x.id ∈ (i.id :: spent) ++ is.map Dbc.id) := by
          simp only [List.mem_append, List.mem_cons, List.map_cons]
          tauto
        exact congrArg (fun b => !b) (decide_eq_decide.mpr hiff)
      rw [hfe, List.map_cons, List.sum_cons]
      have hins2 : ∀ d ∈ is, d ∈ ds ∧ d.id ∉ i.id :: spent := by
        intro d hd
        obtain ⟨hd1, hd2⟩ := hins d (List.mem_cons_of_mem _ hd)
        refine ⟨hd1, ?_⟩
        rw [List.mem_cons]
        rintro (he | he)
        · exact hi0 (he ▸ List.mem_map_of_mem Dbc.id hd)
        · exact hd2 he
      have hx := ih (i.id :: spent) hins2 hisnd
      have hone := sum_filter_cons_id ds spent i hnd
        (hins i (List.mem_cons_self i is)).1 (hins i (List.mem_cons_self i is)).2
      omega

lemma finalize_sum_unspent (l : Ledger) (tx : Tx) (hwf : LedgerWF l)
    (hv : TxValid l tx) :
    (l.finalize tx).sum_unspent_outputs = l.sum_unspent_outputs := by
  obtain ⟨hnd, hsub⟩ := hwf
  obtain ⟨hin, hinnd, hsum⟩ := hv
  simp only [Ledger.sum_unspent_outputs, Ledger.unspent, Ledger.isSpent,
    finalize_spent_ids]
  have hdbcs : (l.finalize tx).dbcs = l.dbcs ++ l.mint tx.outputs := rfl
  rw [hdbcs, List.filter_append, List.map_append, List.sum_append]
  have hmint : (l.mint tx.outputs).filter
      (fun d => ! decide (d.id ∈ l.spent_ids ++ tx.inputs.map Dbc.id))
      = l.mint tx.outputs := by
    rw [List.filter_eq_self]
    intro m hm
    have hge : l.next_id ≤ m.id := mint_id_ge l tx.outputs m.id
      (List.mem_map_of_mem Dbc.id hm)
    have hnotin : m.id ∉ l.spent_ids ++ tx.inputs.map Dbc.id := by
      rw [List.mem_append]
      rintro (hsp | hinp)
      · obtain ⟨d, hd, hdm⟩ := List.mem_map.mp (hsub m.id hsp)
        have hle : d.id ≤ l.max_id := id_le_max_id l d hd
        unfold Ledger.next_id at hge
        exact Nat.not_succ_le_self l.max_id (le_trans hge (hdm ▸ hle))
      · obtain ⟨d, hd, hdm⟩ := List.mem_map.mp hinp
        have hle : d.id ≤ l.max_id := id_le_max_id l d (hin d hd).1
        unfold Ledger.next_id at hge
        exact Nat.not_succ_le_self l.max_id (le_trans hge (hdm ▸ hle))
    simp [hnotin]
  rw [hmint, mint_map_amount, hsum]
  have hins : ∀ d ∈ tx.inputs, d ∈ l.dbcs ∧ d.id ∉ l.spent_ids := by
    intro d hd
    obtain ⟨h1, h2⟩ := hin d hd
    refine ⟨h1, ?_⟩
    unfold Ledger.isSpent at h2
    exact of_decide_eq_false h2
  exact sum_filter_append_ids l.dbcs tx.inputs l.spent_ids hnd hins hinnd

lemma finalize_WF (l : Ledger) (tx : Tx) (hwf : LedgerWF l) (hv : TxValid l tx) :
    LedgerWF (l.finalize tx) := by
  obtain ⟨hnd, hsub⟩ := hwf
  obtain ⟨hin, _, _⟩ := hv
  constructor
  · have hdbcs : (l.finalize tx).dbcs = l.dbcs ++ l.mint tx.outputs := rfl
    rw [hdbcs, List.map_append, List.nodup_append]
    refine ⟨hnd, ?_, ?_⟩
    · rw [mint_map_id]
      exact List.Nodup.map (fun a b h => Nat.add_left_cancel h) (List.nodup_range _)
    · intro x hx
      intro hx2
      obtain ⟨d, hd, hdm⟩ := List.mem_map.mp hx
      have hle : d.id ≤ l.max_id := id_le_max_id l d hd
      have hge : l.next_id ≤ x := mint_id_ge l tx.outputs x hx2
      unfold Ledger.next_id at hge
      exact Nat.not_succ_le_self l.max_id (le_trans hge (hdm ▸ hle))
  · intro i hi
    rw [finalize_spent_ids, List.mem_append] at hi
    have hdbcs : (l.finalize tx).dbcs = l.dbcs ++ l.mint tx.outputs := rfl
    rw [hdbcs, List.map_append, List.mem_append]
    rcases hi with h | h
    · exact Or.inl (hsub i h)
    · obtain ⟨d, hd, rfl⟩ := List.mem_map.mp h
      exact Or.inl (List.mem_map_of_mem Dbc.id (hin d hd).1)

lemma init_WF (amount : Nat) : LedgerWF (Ledger.init amount) := by
  constructor
  · simp [Ledger.init]
  · intro i hi
    simp [Ledger.init, Ledger.spent_ids] at hi

lemma init_sum_unspent (amount : Nat) :
    (Ledger.init amount).sum_unspent_outputs = amount := by
  simp [Ledger.init, Ledger.sum_unspent_outputs, Ledger.unspent, Ledger.isSpent,
    Ledger.spent_ids]

lemma ledger_reachable_invariant (amount : Nat) (l : Ledger)
    (h : LedgerReachable amount l) :
    LedgerWF l ∧ l.sum_unspent_outputs = amount ∧ l.genesis_amount = amount := by
  unfold LedgerReachable at h
  induction h with
  | refl => exact ⟨init_WF amount, init_sum_unspent amount, rfl⟩
  | tail hab hbc ih =>
      obtain ⟨hwf, hsum, hgen⟩ := ih
      cases hbc with
      | finalize tx hv =>
          refine ⟨finalize_WF _ tx hwf hv, ?_, hgen⟩
          rw [finalize_sum_unspent _ tx hwf hv]
          exact hsum

lemma start_reissue_split_preserves_sum (n : Node) (id : Id) (st : State)
    (src : Id) (res : State × List (Id × Msg))
    (h : n.on_msg id st src Msg.StartReissue = some res) :
    ∀ tgt tx, (tgt, Msg.Wallet (LedgerMsg.ReissueRequest tx)) ∈ res.2 →
      tx.outputs.sum = (tx.inputs.map Dbc.amount).sum := by
  intro tgt tx hmem
  unfold Node.on_msg at h
  cases hf : (List.range (n.peers.length + 1)).find? (fun x => x == id) with
  | none =>
      rw [hf] at h
      simp at h
  | some r =>
      rw [hf] at h
      simp only [] at h
      by_cases hr : r ≤ st.wallet.ledger.genesis_dbc.amount
      · rw [if_pos hr] at h
        obtain rfl := Option.some.inj h
        revert hmem
        unfold Wallet.reissue
        split
        · intro hmem
          simp at hmem
        · split
          · intro hmem
            simp at hmem
          · split
            · intro hmem
              simp at hmem
            · intro hmem
              unfold broadcast at hmem
              obtain ⟨t, -, heq⟩ := List.mem_map.mp hmem
              simp only [Prod.mk.injEq] at heq
              obtain ⟨-, hmsg⟩ := heq
              injection hmsg with hmsg2
              injection hmsg2 with hmsg3
              rw [← hmsg3]
              show r + (st.wallet.ledger.genesis_dbc.amount - r + 0)
                  = st.wallet.ledger.genesis_dbc.amount + 0
              simp only [Nat.add_zero]
              exact Nat.add_sub_cancel' hr
      · rw [if_neg hr] at h
        simp at h

/-- C1: in every reachable ledger state of a node, the sum of the amounts
of the currently unspent outputs equals the genesis issuance amount. -/
theorem conservation (amount : Nat) (l : Ledger)
    (h : LedgerReachable amount l) :
    l.sum_unspent_outputs = l.genesis_amount := by
  obtain ⟨_, hsum, hgen⟩ := ledger_reachable_invariant amount l h
  rw [hsum, hgen]

/-- Witness for C1: after finalizing the 50/50 split of the genesis DBC,
the unspent total still equals the genesis amount. -/
theorem conservation_witness :
    ((Ledger.init 100).finalize txEx).sum_unspent_outputs
      = ((Ledger.init 100).finalize txEx).genesis_amount :=
  conservation 100 _ (Relation.ReflTransGen.tail Relation.ReflTransGen.refl
    (LedgerStep.finalize (Ledger.init 100) txEx (by decide)))

/-- C2: two transactions certified within the same elder generation under
overlapping quorums (a threshold exceeding half the elder set) that share
an input are equal — at most one transaction consuming a given input ever
reaches full quorum certification. -/
theorem no_double_certification (elders : Finset Id) (threshold : Nat)
    (signed : Id → Dbc → Option Tx)
    (hmaj : elders.card < 2 * threshold)
    (tx1 tx2 : Tx) (d : Dbc)
    (h1 : CertifiedBy elders threshold signed tx1)
    (h2 : CertifiedBy elders threshold signed tx2)
    (hd1 : d ∈ tx1.inputs) (hd2 : d ∈ tx2.inputs) :
    tx1 = tx2 := by
  obtain ⟨S1, hv1, hh1⟩ := h1
  obtain ⟨S2, hv2, hh2⟩ := h2
  simp only [verify, Bool.and_eq_true, decide_eq_true_iff] at hv1 hv2
  obtain ⟨⟨hs1, ha1⟩, hc1⟩ := hv1
  obtain ⟨⟨hs2, ha2⟩, hc2⟩ := hv2
  have hV1card : (S1.image Prod.fst).card = S1.card := by
    apply Finset.card_image_of_injOn
    intro p hp q hq hpq
    have hps := hs1 p hp
    have hqs := hs1 q hq
    exact Prod.ext hpq (by rw [hps, hqs, hpq])
  have hV2card : (S2.image Prod.fst).card = S2.card := by
    apply Finset.card_image_of_injOn
    intro p hp q hq hpq
    have hps := hs2 p hp
    have hqs := hs2 q hq
    exact Prod.ext hpq (by rw [hps, hqs, hpq])
  have hV1sub : S1.image Prod.fst ⊆ elders := by
    rw [Finset.image_subset_iff]
    exact ha1
  have hV2sub : S2.image Prod.fst ⊆ elders := by
    rw [Finset.image_subset_iff]
    exact ha2
  have hunion : (S1.image Prod.fst ∪ S2.image Prod.fst).card ≤ elders.card :=
    Finset.card_le_card (Finset.union_subset hV1sub hV2sub)
  have hcui := Finset.card_union_add_card_inter (S1.image Prod.fst) (S2.image Prod.fst)
  have hinter : 0 < ((S1.image Prod.fst) ∩ (S2.image Prod.fst)).card := by omega
  obtain ⟨e, he⟩ := Finset.card_pos.mp hinter
  rw [Finset.mem_inter] at he
  obtain ⟨p1, hp1, hpe1⟩ := Finset.mem_image.mp he.1
  obtain ⟨p2, hp2, hpe2⟩ := Finset.mem_image.mp he.2
  have k1 := hh1 p1 hp1 d hd1
  have k2 := hh2 p2 hp2 d hd2
  rw [hpe1] at k1
  rw [hpe2] at k2
  exact Option.some.inj (k1.symm.trans k2)

/-- Witness for C2 at a one-elder quorum: both certifications of the
concrete split transaction name the same transaction. -/
theorem no_double_certification_witness : txEx = txEx :=
  no_double_certification {0} 1 signedEx (by decide) txEx txEx dbcEx
    ⟨{(0, (0, txEx))}, by decide, by decide⟩
    ⟨{(0, (0, txEx))}, by decide, by decide⟩
    (by decide) (by decide)

end StableSetModel
